import Mathlib

set_option maxRecDepth 100000

/-!
Verification of the pyVrp heuristic CVRPTW solver against its specification.

The definitions below are a shallow embedding of the repository's Python
source (helpers.py, initial_solutions.py, vrp.py) into Lean:

* Python floats become rationals (all concrete data used is exact);
* dictionary lookups that can raise `KeyError` become `Option`-valued
  lookups, and computations that can raise propagate `none`;
* `dict` objects whose key-insertion order matters (the route pools) become
  association lists in insertion order;
* the NumPy time-window compatibility matrix becomes a `List (List TWv)`
  where `TWv` is either a finite rational or the minus-infinity sentinel
  (no computation in the source ever produces plus-infinity in the matrix).

Definitions whose doc comment starts with `Modelled from the spec` are
translations of the specification's words (used to compare the code against
the spec); every other definition is translated from the source.
-/

/-- A node row: `open`, `close` and `service_time` fields of the `nodes`
table (the `name`/`type`/`lat`/`long` fields play no computational role). -/
structure NodeData where
  open_time : ℚ
  close_time : ℚ
  service_time : ℚ
  deriving DecidableEq

/-- An arc row: `travel_time` and `cost` fields of the `arcs` table. -/
structure ArcData where
  travel_time : ℚ
  cost : ℚ
  deriving DecidableEq

/-- A validated instance.  Nodes are `0 .. n-1` with `0` the depot (the
construction code hard-codes depot index `0`).  `arcs i j = none` models a
missing `(i, j)` key in the arcs dictionary (Python would raise `KeyError`).
`orders` is total: validation guarantees an order row for every customer
node, and the code paths modelled here never look up `orders[depot]`.
`arcPairs` enumerates the keys of the arcs dictionary in insertion order
(used only by the column-cost sum of `_add_best_routes`). -/
structure VrpInstance where
  n : ℕ
  nodes : ℕ → NodeData
  arcs : ℕ → ℕ → Option ArcData
  orders : ℕ → ℚ
  arcPairs : List (ℕ × ℕ)

/-- Python's `max` on two rationals (spelled out so that kernel
reduction of concrete instances never goes through lattice instances). -/
def pyMax (a b : ℚ) : ℚ := if a ≤ b then b else a

/-- Python's `min` on two rationals. -/
def pyMin (a b : ℚ) : ℚ := if a ≤ b then a else b

/-- Python's `list.insert(i, x)`: inserts before position `i`, appending
when `i ≥ len` (the clamp case is never reached by the source's calls). -/
def pyInsert (x : ℕ) : List ℕ → ℕ → List ℕ
  | l, 0 => x :: l
  | [], _ + 1 => [x]
  | a :: l, i + 1 => a :: pyInsert x l i

/-- helpers.get_temp_route: copy the route and insert `customer` at
`customer_index`. -/
def get_temp_route (route : List ℕ) (customer_index : ℕ) (customer : ℕ) : List ℕ :=
  pyInsert customer route customer_index

/-- The loop body of helpers.route_is_feasible_by_time: walk the remaining
stops keeping `last_customer`, `earliest_finish_time` and the running
feasibility flag; `none` models a `KeyError` on a missing arc. -/
def feasTimeAux (inst : VrpInstance) : List ℕ → ℕ → ℚ → Bool → Option Bool
  | [], _, _, acc => some acc
  | c :: rest, last, eft, acc =>
    match inst.arcs last c with
    | none => none
    | some a =>
      let eft2 := pyMax (eft + a.travel_time) (inst.nodes c).open_time + (inst.nodes c).service_time
      feasTimeAux inst rest c eft2 (acc && !(decide (eft2 > (inst.nodes c).close_time)))

/-- helpers.route_is_feasible_by_time: `route` is without the depot; the
walk appends the depot (`0`) as the last stop and starts from the depot with
`earliest_finish_time = 0`. -/
def route_is_feasible_by_time (route : List ℕ) (inst : VrpInstance) : Option Bool :=
  feasTimeAux inst (get_temp_route route route.length 0) 0 0 true

/-- The loop body of helpers.route_is_feasible: same walk, additionally
accumulating the total order weight of the customers (`customer > 0`). -/
def feasAux (inst : VrpInstance) : List ℕ → ℕ → ℚ → ℚ → Bool → Option (Bool × ℚ)
  | [], _, _, w, acc => some (acc, w)
  | c :: rest, last, eft, w, acc =>
    match inst.arcs last c with
    | none => none
    | some a =>
      let eft2 := pyMax (eft + a.travel_time) (inst.nodes c).open_time + (inst.nodes c).service_time
      let w2 := if 0 < c then w + inst.orders c else w
      feasAux inst rest c eft2 w2 (acc && !(decide (eft2 > (inst.nodes c).close_time)))

/-- helpers.route_is_feasible: time-window walk plus the final
`weight > max_truck_capacity` check. -/
def route_is_feasible (route : List ℕ) (inst : VrpInstance) (max_truck_capacity : ℚ) :
    Option Bool :=
  (feasAux inst (get_temp_route route route.length 0) 0 0 0 true).map
    (fun p => p.1 && !(decide (p.2 > max_truck_capacity)))

/-- An entry of the time-window compatibility matrix: a finite rational or
the `-float('inf')` sentinel.  No entry is ever `+∞` (see `twEntry`), so the
type has no plus-infinity constructor. -/
inductive TWv where
  | neginf : TWv
  | fin : ℚ → TWv
  deriving DecidableEq

/-- One entry of the matrix built by initial_solutions.initial_solution
(lines 10-24): `-1` on the diagonal, otherwise the slack formula, with
`-∞` when `l_j - ae_j ≤ 0`; `none` models `KeyError` on a missing arc. -/
def twEntry (inst : VrpInstance) (i j : ℕ) : Option TWv :=
  if i = j then some (.fin (-1))
  else
    match inst.arcs i j with
    | none => none
    | some a =>
      let l_j := (inst.nodes j).close_time - (inst.nodes j).service_time
      let e_j := (inst.nodes j).open_time
      let ae_j := (inst.nodes i).open_time + (inst.nodes i).service_time + a.travel_time
      let al_j := (inst.nodes j).close_time + a.travel_time
      some (if l_j - ae_j > 0 then .fin (pyMin l_j al_j - pyMax e_j ae_j) else .neginf)

/-- Sequence a list of options (the first missing element aborts, like the
first `KeyError` raised inside the matrix-building loops). -/
def optList {α : Type} : List (Option α) → Option (List α)
  | [] => some []
  | none :: _ => none
  | some a :: rest => (optList rest).map (a :: ·)

/-- The full `n × n` compatibility matrix of initial_solution, row by row. -/
def twMatrix (inst : VrpInstance) : Option (List (List TWv)) :=
  optList ((List.range inst.n).map (fun i =>
    optList ((List.range inst.n).map (twEntry inst i))))

/-- NumPy-style indexing into the built matrix.  All call sites index with
`i, j < n`, where the lookup always succeeds; the default is never used. -/
def twGetD (m : List (List TWv)) (i j : ℕ) : TWv :=
  (((m.get? i).bind (fun row => row.get? j)).getD (.fin 0))

/-- `t ≤ t'` on matrix entries, with `-∞` below every finite value. -/
def twLe : TWv → TWv → Bool
  | .neginf, _ => true
  | .fin _, .neginf => false
  | .fin a, .fin b => decide (a ≤ b)

/-- `tw_compatibility.max() * 100` (line 25).  `none` when the matrix is
empty (NumPy raises on `.max()` of an empty array) or when every entry is
`-∞` — the latter cannot happen for `n ≥ 1` since the diagonal is `-1`. -/
def bigValQ (m : List (List TWv)) : Option ℚ :=
  match m.flatten.foldl
      (fun acc t => match acc with
        | none => some t
        | some a => some (if twLe a t then t else a))
      (none : Option TWv) with
  | some (.fin q) => some (q * 100)
  | some .neginf => none
  | none => none

/-- The `-inf ↦ -big_val` substitution of lines 33-34. -/
def twSub (bv : ℚ) : TWv → ℚ
  | .neginf => -bv
  | .fin q => q

/-- seed_value of node `i` (lines 27-36): `Σ_{j≠i} 2·tw'[i,j] + tw'[j,i]`. -/
def seedValue (n : ℕ) (m : List (List TWv)) (bv : ℚ) (i : ℕ) : ℚ :=
  ((List.range n).map (fun j =>
    if j = i then 0 else 2 * twSub bv (twGetD m i j) + twSub bv (twGetD m j i))).sum

/-- Insert `i` into an ascending list, ordering by key and breaking key ties
by index.  `np.argsort`'s default sort is unspecified on ties; every
instance evaluated in this file has pairwise distinct seed values, where any
comparison sort agrees with this one. -/
def insSorted (f : ℕ → ℚ) (i : ℕ) : List ℕ → List ℕ
  | [] => [i]
  | j :: rest =>
    if f j < f i ∨ (f j = f i ∧ j < i) then j :: insSorted f i rest
    else i :: j :: rest

/-- `np.argsort` (ascending) over the index list, by insertion sort. -/
def argsortAsc (f : ℕ → ℚ) : List ℕ → List ℕ
  | [] => []
  | i :: rest => insSorted f i (argsortAsc f rest)

/-- `arcs[(i, j)]['cost']`, `none` on `KeyError`. -/
def arcCost (inst : VrpInstance) (i j : ℕ) : Option ℚ :=
  (inst.arcs i j).map ArcData.cost

/-- The `value == -float('inf')` test (written `-float('inf') != …` in the
source; this is its negation-free form). -/
def isNegInf : TWv → Bool
  | .neginf => true
  | .fin _ => false

/-- Float addition of two matrix entries (used by the middle-insertion
check `tw[prev,c] + tw[c,next]`): `-∞` absorbs, finite values add.  No
entry is `+∞`, so the IEEE `∞ + (-∞)` case cannot arise. -/
def twAdd : TWv → TWv → TWv
  | .fin a, .fin b => .fin (a + b)
  | _, _ => .neginf

/-- A candidate insertion as the inner loop of initial_solution evaluates
it: its `route_value`, the insert position, and whether the admissibility
check (`TW` filter `and` time feasibility, short-circuiting) passed.
`none` models a `KeyError` while computing `route_value` or walking the
prospective route. -/
abbrev InsCand : Type := ℚ × ℕ × Bool

/-- Head insertion (customer_index == 0, lines 63-71). -/
def headCand (inst : VrpInstance) (m : List (List TWv)) (r : List ℕ) (c cr : ℕ) :
    Option InsCand :=
  match arcCost inst 0 c, arcCost inst c cr, arcCost inst 0 cr with
  | some a1, some a2, some a3 =>
    let v := a1 + (inst.nodes c).service_time + a2 - a3
    if isNegInf (twGetD m c cr) then some (v, 0, false)
    else (route_is_feasible_by_time (get_temp_route r 0 c) inst).map (fun f => (v, 0, f))
  | _, _, _ => none

/-- Middle insertion (0 < customer_index < len(route) - 1, lines 72-83). -/
def middleCand (inst : VrpInstance) (m : List (List TWv)) (r : List ℕ) (c ci prevC cr : ℕ) :
    Option InsCand :=
  match arcCost inst prevC c, arcCost inst c cr, arcCost inst prevC cr with
  | some a1, some a2, some a3 =>
    let v := a1 + a2 - a3 + (inst.nodes c).service_time
    if isNegInf (twAdd (twGetD m prevC c) (twGetD m c cr)) then some (v, ci, false)
    else (route_is_feasible_by_time (get_temp_route r ci c) inst).map (fun f => (v, ci, f))
  | _, _, _ => none

/-- Tail insertion (customer_index == len(route) - 1, lines 84-92); the
insert position is `customer_index + 1 = len(route)`. -/
def tailCand (inst : VrpInstance) (m : List (List TWv)) (r : List ℕ) (c cr : ℕ) :
    Option InsCand :=
  match arcCost inst cr c with
  | some a1 =>
    let v := a1 + (inst.nodes c).service_time
    if isNegInf (twGetD m cr c) then some (v, r.length, false)
    else
      (route_is_feasible_by_time (get_temp_route r r.length c) inst).map
        (fun f => (v, r.length, f))
  | none => none

/-- The candidates evaluated at loop index `ci` of `enumerate(route)`, in
evaluation order.  The head `if` and the middle `elif` are mutually
exclusive; the tail `if` additionally fires at `ci = len - 1` (so for a
singleton route both head and tail fire at `ci = 0`).  Out-of-range `ci`
(never reached by `enumerate`) yields no candidates. -/
def candsAt (inst : VrpInstance) (m : List (List TWv)) (r : List ℕ) (c ci : ℕ) :
    Option (List InsCand) :=
  match r.get? ci with
  | none => some []
  | some cr =>
    (if ci = 0 then (headCand inst m r c cr).map (fun t => [t])
     else if 0 < ci ∧ ci + 1 < r.length then
       match r.get? (ci - 1) with
       | none => some []
       | some prevC => (middleCand inst m r c ci prevC cr).map (fun t => [t])
     else some []).bind fun l1 =>
      (if ci + 1 = r.length then (tailCand inst m r c cr).map (fun t => [t])
       else some []).map fun l2 => l1 ++ l2

/-- All candidates the inner loop evaluates for one route, in order. -/
def routeCands (inst : VrpInstance) (m : List (List TWv)) (r : List ℕ) (c : ℕ) :
    Option (List InsCand) :=
  (optList ((List.range r.length).map (candsAt inst m r c))).map List.flatten

/-- A candidate tagged with its route id. -/
abbrev Cand : Type := ℚ × (ℕ × ℕ) × Bool

/-- All candidates the insertion loop for customer `c` evaluates, scanning
routes in dictionary order (ids ascending during the insertion phase).  A
route is scanned only when `orders[c] + seed_truck_capacity[route_idx] ≤
max_truck_capacity` (line 60) — note the long-standing stale-weight gate:
`seed_truck_capacity` is never updated after seeding. -/
def allCands (inst : VrpInstance) (m : List (List TWv)) (seedCaps : List ℚ) (cap : ℚ)
    (routes : List (ℕ × List ℕ)) (c : ℕ) : Option (List Cand) :=
  (optList (routes.map (fun rr =>
    match seedCaps.get? rr.1 with
    | none => none
    | some w =>
      if inst.orders c + w ≤ cap then
        (routeCands inst m rr.2 c).map
          (List.map (fun t => (t.1, (rr.1, t.2.1), t.2.2)))
      else some []))).map List.flatten

/-- The running best of `_better_route_and_position`: start from
`best_route_value = 9999999` and the `-1` sentinels (modelled as `none`),
update on a strictly smaller value of an admissible candidate. -/
def selBest : ℚ → Option (ℕ × ℕ) → List Cand → ℚ × Option (ℕ × ℕ)
  | bv, bb, [] => (bv, bb)
  | bv, bb, (v, ip, adm) :: rest =>
    if adm && decide (v < bv) then selBest v (some ip) rest else selBest bv bb rest

/-- Update the route list at key `rid` (dict value mutation). -/
def updAssoc (routes : List (ℕ × List ℕ)) (rid : ℕ) (f : List ℕ → List ℕ) :
    List (ℕ × List ℕ) :=
  routes.map (fun e => if e.1 = rid then (e.1, f e.2) else e)

/-- One iteration of the `for count, customer in enumerate(...)` insertion
loop (lines 55-94): evaluate all candidates, keep the best admissible one,
fail (`assert best_route_index != -1`) when there is none, and insert. -/
def insertCustomer (inst : VrpInstance) (m : List (List TWv)) (seedCaps : List ℚ) (cap : ℚ)
    (routes : List (ℕ × List ℕ)) (c : ℕ) : Option (List (ℕ × List ℕ)) :=
  (allCands inst m seedCaps cap routes c).bind fun L =>
    match (selBest 9999999 none L).2 with
    | none => none
    | some (rid, pos) => some (updAssoc routes rid (fun r => pyInsert c r pos))

/-- Option-propagating left fold. -/
def foldOpt {α β : Type} (f : β → α → Option β) : β → List α → Option β
  | b, [] => some b
  | b, a :: l =>
    match f b a with
    | none => none
    | some b' => foldOpt f b' l

/-- The `!= float('inf')` comparison of the merge pass (lines 102 and 107).
The matrix never contains `+∞` (`twEntry` produces only finite values and
`-∞`), so the comparison is true of every entry — including `-∞`, which is
why the merge filter the spec describes is vacuous in the source. -/
def twNeFloatInf : TWv → Bool
  | .neginf => true
  | .fin _ => true

/-- One merge test `tw[last(A), first(B)] != inf and feasible(A + B)`
(short-circuit `and`); `none` models indexing an empty route (never
reached: every route holds at least its seed). -/
def mergeCheck (inst : VrpInstance) (cap : ℚ) (m : List (List TWv)) (a b : List ℕ) :
    Option Bool :=
  match a.getLast?, b.head? with
  | some la, some hb =>
    ((m.get? la).bind (fun row => row.get? hb)).bind fun t =>
      if twNeFloatInf t then route_is_feasible (a ++ b) inst cap else some false
  | _, _ => none

/-- The body of the pair scan (lines 99-111) for one ordered pair, carrying
`(routes_combined, route_combinations)`. -/
def mergePair (inst : VrpInstance) (cap : ℚ) (m : List (List TWv))
    (st : List ℕ × List (ℕ × ℕ)) (ri rj : ℕ × List ℕ) :
    Option (List ℕ × List (ℕ × ℕ)) :=
  if ri.1 ≠ rj.1 ∧ ¬ st.1.contains ri.1 ∧ ¬ st.1.contains rj.1 then
    (mergeCheck inst cap m ri.2 rj.2).bind fun ok1 =>
      if ok1 then some (st.1 ++ [ri.1, rj.1], st.2 ++ [(ri.1, rj.1)])
      else
        (mergeCheck inst cap m rj.2 ri.2).bind fun ok2 =>
          if ok2 then some (st.1 ++ [ri.1, rj.1], st.2 ++ [(rj.1, ri.1)])
          else some st
  else some st

/-- The full double scan over ordered route pairs; the commits happen only
after the scan, exactly as in the source. -/
def mergeScan (inst : VrpInstance) (cap : ℚ) (m : List (List TWv))
    (routes : List (ℕ × List ℕ)) : Option (List ℕ × List (ℕ × ℕ)) :=
  foldOpt
    (fun st ri => foldOpt (fun st2 rj => mergePair inst cap m st2 ri rj) st routes)
    ([], []) routes

/-- The commit loop (lines 112-119): fresh ids start at `len(routes)`; each
commit appends the concatenated route and deletes the two sources. -/
def applyMerges (routes : List (ℕ × List ℕ)) (combos : List (ℕ × ℕ)) :
    Option (List (ℕ × List ℕ)) :=
  (foldOpt
    (fun (st : List (ℕ × List ℕ) × ℕ) (ij : ℕ × ℕ) =>
      match st.1.lookup ij.1, st.1.lookup ij.2 with
      | some ri, some rj =>
        some (((st.1.filter (fun e => e.1 ≠ ij.1)).filter (fun e => e.1 ≠ ij.2))
          ++ [(st.2, ri ++ rj)], st.2 + 1)
      | _, _ => none)
    (routes, routes.length) combos).map Prod.fst

/-- initial_solutions.initial_solution: the compatibility matrix, seed
selection, the insertion phase and the merge pass, returning the final
densely renumbered routes (as the list of their customer sequences, in
dictionary order) together with the matrix. -/
def initial_solution (inst : VrpInstance) (fleet_size : ℕ) (cap : ℚ) :
    Option (List (List ℕ) × List (List TWv)) :=
  (twMatrix inst).bind fun m =>
  (bigValQ m).bind fun bv =>
  let seedVals := (List.range inst.n).map (seedValue inst.n m bv)
  let sorted := argsortAsc (fun i => seedVals.getD i 0) (List.range inst.n)
  let seeds0 := sorted.take fleet_size
  -- seed_truck_capacity is computed from the seeds *before* the depot is
  -- filtered out (source lines 39 vs. 41-42), and never updated afterwards.
  let seedCaps := seeds0.map inst.orders
  let notPlaced0 := sorted.drop fleet_size
  let seeds := if seeds0.contains 0 then seeds0.filter (fun x => 0 < x) else seeds0
  let notPlaced :=
    if notPlaced0.contains 0 then notPlaced0.filter (fun x => 0 < x) else notPlaced0
  let routes0 := (List.range seeds.length).zip (seeds.map (fun s => [s]))
  (foldOpt (insertCustomer inst m seedCaps cap) routes0 notPlaced).bind fun routes1 =>
  (mergeScan inst cap m routes1).bind fun scan =>
  (applyMerges routes1 scan.2).map fun routes2 => (routes2.map Prod.snd, m)

/-- An extended objective value: `prev_model_obj_value` starts as
`float('inf')` (`top`) and becomes finite after the first successful master
solve. -/
inductive EQf where
  | top : EQf
  | fin : ℚ → EQf
  deriving DecidableEq

/-- The test `Objective().Value() > (1 - min_progress) * prev_model_obj_value`
(vrp.py lines 299-300) under float semantics.  When `prev = ∞`: for
`p < 1` the right side is `∞` and the comparison is false; for `p = 1` it
is `0 * ∞ = NaN` and any `>` against NaN is false; for `p > 1` it is `-∞`
and the comparison is true.  Validation caps `p` at `1`. -/
def objGtThresh (p : ℚ) (prev : EQf) (obj : ℚ) : Bool :=
  match prev with
  | .top => decide (1 - p < 0)
  | .fin q => decide (obj > (1 - p) * q)

/-- Result of the stagnation bookkeeping of one CG iteration: the new
no-improvement counter, the new previous objective, and whether the loop
`break`s. -/
structure ProgRes where
  cni : ℕ
  prev : EQf
  exit : Bool
  deriving DecidableEq

/-- vrp.py lines 299-318 for a successfully solved master
(`model_status == 0`): on strict improvement failure the counter is
incremented and the loop breaks when it reaches `max_count_no_improvements`
(before the `prev` update on line 317-318); otherwise the counter resets;
every non-breaking path then runs `prev_model_obj_value = Objective()`. -/
def cgProgressStep (p : ℚ) (prev : EQf) (obj : ℚ) (cni maxCni : ℕ) : ProgRes :=
  if objGtThresh p prev obj then
    let c := cni + 1
    if c = maxCni then ⟨c, prev, true⟩
    else ⟨c, .fin obj, false⟩
  else ⟨0, .fin obj, false⟩

/-- The `≥` form of the threshold test used by the claim. -/
def objGeThresh (p : ℚ) (prev : EQf) (obj : ℚ) : Bool :=
  match prev with
  | .top => decide (1 - p < 0)
  | .fin q => decide (obj ≥ (1 - p) * q)

/-- Modelled from the spec (claim C2 / §4.6 step 3): if
`obj ≥ (1 − min_progress) · prev` (including equality) increment the
counter and exit at `max_count_no_improvements`, leaving `prev` unchanged
on every non-improving iteration; otherwise reset the counter and set
`prev = obj`. -/
def cgProgressStepClaim (p : ℚ) (prev : EQf) (obj : ℚ) (cni maxCni : ℕ) : ProgRes :=
  if objGeThresh p prev obj then ⟨cni + 1, prev, decide (cni + 1 = maxCni)⟩
  else ⟨0, .fin obj, false⟩

/-- Python's `int()` float-to-int conversion: truncation toward zero. -/
def pyInt (q : ℚ) : ℤ :=
  if q < 0 then ⌈q⌉ else ⌊q⌋

/-- The final IP time limit set on vrp.py line 346:
`int(1000 * .1 * remaining_solve_time)` milliseconds, where
`remaining_solve_time = max_solve_time - init_time`.  The coefficient is a
hard-coded `.1`, independent of `column_generation_solve_ratio`. -/
def finalIpTimeLimitMs (remaining : ℚ) : ℤ :=
  pyInt (1000 * ((1 / 10) * remaining))

/-- Modelled from the spec (claim C3 / §4.4): the final IP runs under a
time limit of `(1 − column_generation_solve_ratio) · (max_solve_time −
init_time)` seconds, here expressed in the same milliseconds unit the
solver interface takes. -/
def specFinalIpTimeLimitMs (ratio remaining : ℚ) : ℤ :=
  pyInt (1000 * ((1 - ratio) * remaining))

/-- A stop record of a pool route: the `node_idx` key, and the `arrival`
key when the producing code wrote one (`none` models its absence from the
Python dict). -/
structure Stop where
  node_idx : ℕ
  arrival : Option ℚ
  deriving DecidableEq

/-- A singleton initial route (vrp.py lines 149-154): depot at arrival 0,
the customer at `max(travel(depot, j), open(j))`, and the depot again at
the hard-coded arrival `24`. -/
def singletonRoute (inst : VrpInstance) (j : ℕ) : Option (List Stop) :=
  (inst.arcs 0 j).map fun a =>
    [⟨0, some 0⟩,
     ⟨j, some (pyMax a.travel_time (inst.nodes j).open_time)⟩,
     ⟨0, some 24⟩]

/-- The stop dictionary built for one construction-heuristic route
(vrp.py lines 166-184): keys `0 .. len(route)+1` hold
`dict(node_idx=...)` records — the depot first and last, the customers in
between — and no entry carries an `arrival` key.  (The parallel
`route_costs` accumulation of the same loop is not needed by any claim and
is omitted.) -/
def nikoMasterRoute (r : List ℕ) : List Stop :=
  ⟨0, none⟩ :: (r.map (fun c => ⟨c, none⟩) ++ [⟨0, none⟩])

/-- vrp.py `_next_stop`: the successors with `x` value above `0.9`, in node
order, then `list.pop()` takes the last; `none` models the `IndexError`
that `pop` raises on the empty list (the source prints a diagnostic and
pops anyway). -/
def next_stop (inst : VrpInstance) (x : ℕ → ℕ → ℚ) (cur : ℕ) : Option ℕ :=
  ((List.range inst.n).filter
    (fun j => decide (cur ≠ j) && decide (x cur j > 9 / 10))).getLast?

/-- Failure modes of the embedded solve: `solverAbnormal` models the
`assert False` on a failed master solve, `indexError` the uncaught
`IndexError` from `_next_stop`, `fuelOut` the walk of `_recover_route`
failing to return to the depot within `n` steps (on such `x` values the
source loops without bound; no claim exercises this). -/
inductive SolveErr where
  | solverAbnormal : SolveErr
  | indexError : SolveErr
  | fuelOut : SolveErr
  deriving DecidableEq

/-- The `while node_idx != self.depot_idx` walk of `_recover_route`,
collecting the intermediate stops with arrivals from `s`. -/
def recoverAux (inst : VrpInstance) (x : ℕ → ℕ → ℚ) (s : ℕ → ℚ) :
    ℕ → ℕ → Except SolveErr (List Stop)
  | 0, _ => .error .fuelOut
  | fuel + 1, cur =>
    match next_stop inst x cur with
    | none => .error .indexError
    | some nxt =>
      if nxt = 0 then .ok []
      else (recoverAux inst x s fuel nxt).map (fun rest => ⟨nxt, some (s nxt)⟩ :: rest)

/-- vrp.py `_recover_route`: depot at arrival `0`, the walked stops, and
the depot again at arrival `close(depot)`. -/
def recover_route (inst : VrpInstance) (x : ℕ → ℕ → ℚ) (s : ℕ → ℚ) :
    Except SolveErr (List Stop) :=
  (recoverAux inst x s (inst.n + 1) 0).map
    (fun mids => ⟨0, some 0⟩ :: (mids ++ [⟨0, some (inst.nodes 0).close_time⟩]))

/-- The new column's cost (vrp.py line 371):
`sum(f['cost'] * x[i, j] for (i, j), f in arcs.items())`. -/
def colCost (inst : VrpInstance) (x : ℕ → ℕ → ℚ) : ℚ :=
  (inst.arcPairs.map (fun ij =>
    (((inst.arcs ij.1 ij.2).map ArcData.cost).getD 0) * x ij.1 ij.2)).sum

/-- The solver outputs one CG iteration consumes: the wall-clock check at
the loop head, the master status and objective, the pricing status and
objective, and the pricing solution values. -/
structure IterOracle where
  timeOk : Bool
  masterStatus : ℤ
  masterObj : ℚ
  subStatus : ℤ
  subObj : ℚ
  x : ℕ → ℕ → ℚ
  s : ℕ → ℚ

/-- The loop state of `HeuristicVRP.solve`: `finding_better_routes`, the
no-improvement counter, `prev_model_obj_value`, and the route pool with its
costs. -/
structure CGState where
  findingBetter : Bool
  cni : ℕ
  prev : EQf
  pool : List (List Stop)
  costs : List ℚ

/-- Outcome of the solve: either an uncaught exception (the source has no
exception handler anywhere on this path) or normal arrival at the final IP
solve with the accumulated pool. -/
inductive SolveOutcome where
  | crashed : SolveErr → SolveOutcome
  | finished : List (List Stop) → SolveOutcome
  deriving DecidableEq

/-- The column-generation loop of `HeuristicVRP.solve` (vrp.py lines
283-340) driven by a trace of solver outputs: loop while
`finding_better_routes` and time remains (`find_all_routes` is the
constant `False` and `model_mip_gap` stays `float('inf')`, so the
`model_mip_gap > master_problem_mip_gap` conjunct is always true; the
rebuild of the master at `count > 0` leaves the pool unchanged and is a
no-op here).  A non-zero master status hits `assert False`; the stagnation
bookkeeping may `break`; a non-zero pricing status `break`s; a negative
pricing objective recovers and appends a column, otherwise
`finding_better_routes` is cleared.  An exhausted trace models the time
budget expiring. -/
def solveLoop (inst : VrpInstance) (p : ℚ) (maxCni : ℕ) :
    CGState → List IterOracle → SolveOutcome
  | st, [] => .finished st.pool
  | st, o :: rest =>
    if st.findingBetter = true ∧ o.timeOk = true then
      if o.masterStatus ≠ 0 then .crashed .solverAbnormal
      else
        let pr := cgProgressStep p st.prev o.masterObj st.cni maxCni
        if pr.exit then .finished st.pool
        else if o.subStatus ≠ 0 then .finished st.pool
        else if o.subObj < 0 then
          match recover_route inst o.x o.s with
          | .error e => .crashed e
          | .ok route =>
            solveLoop inst p maxCni
              { findingBetter := st.findingBetter, cni := pr.cni, prev := pr.prev,
                pool := st.pool ++ [route], costs := st.costs ++ [colCost inst o.x] } rest
        else
          solveLoop inst p maxCni
            { findingBetter := false, cni := pr.cni, prev := pr.prev,
              pool := st.pool, costs := st.costs } rest
    else .finished st.pool

/-- `_save_solution` lines 423-425: for each selected route id, emit one
`(idx, stop, record)` row per stop, in stop order. -/
def saveRoutesTable (pool : List (List Stop)) (selected : List ℕ) :
    List (ℕ × ℕ × Stop) :=
  selected.flatMap fun k =>
    match pool.get? k with
    | none => []
    | some stops => ((List.range stops.length).zip stops).map (fun p => (k, p.1, p.2))

/-- Modelled from the spec (§4.3): the insertion cost of placing customer
`c` at insert position `pos` of route `r` — head, middle and tail formulas
of claim C5. -/
def specInsertionCost (inst : VrpInstance) (r : List ℕ) (c pos : ℕ) : Option ℚ :=
  if pos = 0 then
    r.head?.bind fun first =>
      (arcCost inst 0 c).bind fun a1 =>
      (arcCost inst c first).bind fun a2 =>
      (arcCost inst 0 first).map fun a3 =>
        a1 + (inst.nodes c).service_time + a2 - a3
  else if pos = r.length then
    r.getLast?.bind fun last =>
      (arcCost inst last c).map fun a1 => a1 + (inst.nodes c).service_time
  else
    (r.get? (pos - 1)).bind fun prevC =>
      (r.get? pos).bind fun nxt =>
      (arcCost inst prevC c).bind fun a1 =>
      (arcCost inst c nxt).bind fun a2 =>
      (arcCost inst prevC nxt).map fun a3 =>
        a1 + a2 - a3 + (inst.nodes c).service_time

/-- Modelled from the spec (§4.3): an insertion of `c` at position `pos` of
route `r` is admissible when (a) the route's total weight after adding `c`
is within capacity, (b) every adjacent pair of the prospective sequence —
including the two depot legs — has finite `TW`, and (c) the prospective
sequence passes the time-feasibility walk. -/
def specPairsFinite (inst : VrpInstance) : ℕ → List ℕ → Bool
  | _, [] => true
  | prev, c :: rest =>
    (match twEntry inst prev c with
     | some (.fin _) => true
     | _ => false) && specPairsFinite inst c rest

/-- Modelled from the spec (§4.3), continued: the full admissibility test. -/
def specInsertionAdmissible (inst : VrpInstance) (cap : ℚ) (r : List ℕ) (c pos : ℕ) :
    Bool :=
  let r2 := pyInsert c r pos
  decide ((r2.map inst.orders).sum ≤ cap) &&
    specPairsFinite inst 0 (r2 ++ [0]) &&
    (route_is_feasible_by_time r2 inst == some true)

/-- Modelled from the spec (claim C8): the `finish` recurrence along
`depot, c₁, …, cₖ, depot` with `finish(depot) = 0`, returning each stop
paired with its finish time; `none` when a leg's arc is missing. -/
def finishWalk (inst : VrpInstance) : ℕ → ℚ → List ℕ → Option (List (ℕ × ℚ))
  | _, _, [] => some []
  | last, f, c :: rest =>
    (inst.arcs last c).bind fun a =>
      let f2 := pyMax (f + a.travel_time) (inst.nodes c).open_time + (inst.nodes c).service_time
      (finishWalk inst c f2 rest).map ((c, f2) :: ·)

/-- Modelled from the spec (§4.2 / claim C9): the `TW[i,j]` value for
`i ≠ j` in terms of the two node rows and the travel time of arc
`(i, j)`. -/
def TWspecVal (ni nj : NodeData) (travel : ℚ) : TWv :=
  let l_j := nj.close_time - nj.service_time
  let e_j := nj.open_time
  let ae_j := ni.open_time + ni.service_time + travel
  let al_j := nj.close_time + travel
  if l_j - ae_j > 0 then .fin (pyMin l_j al_j - pyMax e_j ae_j) else .neginf

/-- Every consecutive leg of the walk from `last` through `l` has an arc
row (decidably phrased via `Option.isSome`). -/
def legsDefined (inst : VrpInstance) : ℕ → List ℕ → Bool
  | _, [] => true
  | last, c :: rest => (inst.arcs last c).isSome && legsDefined inst c rest

/-- Instance `I1`: depot `0` and customers `1, 2, 3`, all with windows
`[0, 1000]` and zero service time; symmetric travel times (= costs)
`t01 = 1, t02 = 2, t03 = 3, t12 = 4, t13 = 5, t23 = 6`; every order weighs
`2`.  Run with `fleet_size = 1` and `truck_capacity = 4` it exhibits the
stale seed-weight capacity gate. -/
def I1nodes : ℕ → NodeData := fun _ => ⟨0, 1000, 0⟩

def I1arcs : ℕ → ℕ → Option ArcData
  | 0, 1 => some ⟨1, 1⟩
  | 1, 0 => some ⟨1, 1⟩
  | 0, 2 => some ⟨2, 2⟩
  | 2, 0 => some ⟨2, 2⟩
  | 0, 3 => some ⟨3, 3⟩
  | 3, 0 => some ⟨3, 3⟩
  | 1, 2 => some ⟨4, 4⟩
  | 2, 1 => some ⟨4, 4⟩
  | 1, 3 => some ⟨5, 5⟩
  | 3, 1 => some ⟨5, 5⟩
  | 2, 3 => some ⟨6, 6⟩
  | 3, 2 => some ⟨6, 6⟩
  | _, _ => none

def I1 : VrpInstance :=
  { n := 4
    nodes := I1nodes
    arcs := I1arcs
    orders := fun _ => 2
    arcPairs := [(0, 1), (1, 0), (0, 2), (2, 0), (0, 3), (3, 0),
                 (1, 2), (2, 1), (1, 3), (3, 1), (2, 3), (3, 2)] }

/-- Instance `I2`: wide windows as in `I1`; travel times
`t01 = 1, t02 = 2, t03 = 3, t12 = 10, t13 = 8, t23 = 2` (symmetric) put the
seed order at `[1, 2, 3, 0]`; the directed costs are chosen so that with
`fleet_size = 1` the route grows to `[1, 2]` and the cheapest spot for
customer `3` is the never-evaluated middle position `1`. -/
def I2arcs : ℕ → ℕ → Option ArcData
  | 0, 1 => some ⟨1, 1⟩
  | 1, 0 => some ⟨1, 1⟩
  | 0, 2 => some ⟨2, 5⟩
  | 2, 0 => some ⟨2, 1⟩
  | 0, 3 => some ⟨3, 6⟩
  | 3, 0 => some ⟨3, 1⟩
  | 1, 2 => some ⟨10, 2⟩
  | 2, 1 => some ⟨10, 5⟩
  | 1, 3 => some ⟨8, 1⟩
  | 3, 1 => some ⟨8, 6⟩
  | 2, 3 => some ⟨2, 4⟩
  | 3, 2 => some ⟨2, 1⟩
  | _, _ => none

def I2 : VrpInstance :=
  { n := 4
    nodes := I1nodes
    arcs := I2arcs
    orders := fun _ => 1
    arcPairs := [(0, 1), (1, 0), (0, 2), (2, 0), (0, 3), (3, 0),
                 (1, 2), (2, 1), (1, 3), (3, 1), (2, 3), (3, 2)] }

/-- Instance `I3`: depot `0`, customers `1` (window `[10, 20]`) and `2`
(window `[0, 16]`), zero service times; travel times
`t(0,1) = 5, t(1,0) = 4, t(0,2) = 2, t(2,0) = 1, t(1,2) = 6, t(2,1) = 3`.
`TW[1,2] = -∞` (zero slack) yet the route `[1, 2]` is exactly
time-feasible, so with `fleet_size = 2` the merge pass joins `[1]` and
`[2]` across the `-∞` junction. -/
def I3nodes : ℕ → NodeData
  | 1 => ⟨10, 20, 0⟩
  | 2 => ⟨0, 16, 0⟩
  | _ => ⟨0, 24, 0⟩

def I3arcs : ℕ → ℕ → Option ArcData
  | 0, 1 => some ⟨5, 5⟩
  | 1, 0 => some ⟨4, 4⟩
  | 0, 2 => some ⟨2, 2⟩
  | 2, 0 => some ⟨1, 1⟩
  | 1, 2 => some ⟨6, 6⟩
  | 2, 1 => some ⟨3, 3⟩
  | _, _ => none

def I3 : VrpInstance :=
  { n := 3
    nodes := I3nodes
    arcs := I3arcs
    orders := fun _ => 1
    arcPairs := [(0, 1), (1, 0), (0, 2), (2, 0), (1, 2), (2, 1)] }

/-- The compatibility matrix of `I2` (hand-checkable: `1000 - t(i,j)` off
the diagonal, `-1` on it). -/
def twI2 : List (List TWv) :=
  [[.fin (-1), .fin 999, .fin 998, .fin 997],
   [.fin 999, .fin (-1), .fin 990, .fin 992],
   [.fin 998, .fin 990, .fin (-1), .fin 998],
   [.fin 997, .fin 992, .fin 998, .fin (-1)]]

/-- The compatibility matrix of `I3` (entry `(1, 2)` is the `-∞`
junction). -/
def twI3 : List (List TWv) :=
  [[.fin (-1), .fin 10, .fin 14],
   [.fin 10, .fin (-1), .neginf],
   [.fin 23, .fin 10, .fin (-1)]]

/-- The oracle of one degenerate CG iteration: the master solves with
objective `5`, the pricing problem reports a negative objective, and every
`x` value is `0`, so no successor clears the `0.9` threshold. -/
def o6 : IterOracle :=
  { timeOk := true, masterStatus := 0, masterObj := 5, subStatus := 0, subObj := -1,
    x := fun _ _ => 0, s := fun _ => 0 }

/-- The loop state at entry of `HeuristicVRP.solve`'s CG loop. -/
def cgInit : CGState :=
  { findingBetter := true, cni := 0, prev := .top, pool := [], costs := [] }

/-- Claim C1 (code bug, failing input): on instance `I1` with
`fleet_size = 1` and `truck_capacity = 4` the constructor succeeds and its
pool consists of the single route `[1, 2, 3]`, which `route_is_feasible`
rejects — its total weight `6` exceeds the capacity `4`.  The insertion
gate compares against the seed's weight only (`seed_truck_capacity` is
never updated), so the third customer is admitted into an already-full
route, contradicting the claimed pool invariant `feasible(R)` and the
source's own final `route_is_feasible` assertion. -/
theorem C1_pool_route_violates_capacity :
    (initial_solution I1 1 4).map Prod.fst = some [[1, 2, 3]] ∧
    route_is_feasible [1, 2, 3] I1 4 = some false := by
  constructor <;> with_unfolding_all decide

/-- Claim C4 (code bug, failing input): on instance `I3` with
`fleet_size = 2` the constructor seeds routes `[1]` and `[2]`, the merge
scan commits the pair `(0, 1)`, and the final pool is `[[1, 2]]` — even
though the junction entry `TW[1, 2]` is `-∞`.  The source's merge filter
compares the junction against `+inf` (which no entry equals) instead of
`-inf`, so it never rejects anything; the concatenated route happens to be
exactly time-feasible, and the claimed "no merge across a `-∞` junction"
is violated. -/
theorem C4_merge_commits_neginf_junction :
    (initial_solution I3 2 40000).map Prod.fst = some [[1, 2]] ∧
    twEntry I3 1 2 = some .neginf ∧
    (twMatrix I3).bind (fun m => (mergeScan I3 40000 m [(0, [1]), (1, [2])]).map Prod.snd)
      = some [(0, 1)] ∧
    route_is_feasible ([1] ++ [2]) I3 40000 = some true := by
  refine ⟨?_, ?_, ?_, ?_⟩ <;> with_unfolding_all decide

/-- Claim C2 (counterexample): two concrete iterations on which the code's
stagnation step disagrees with the claimed one.  With defaults
`p = 1/1000`, `prev = 100`, `obj = 150`, counter `5` of `10`: the code
increments and then sets `prev := 150`, while the claim keeps
`prev = 100` on a non-improving iteration.  With `p = 0`, `prev = 10`,
`obj = 10` (exact equality with the threshold): the code resets the
counter, while the claim increments it. -/
theorem C2_cex_step_disagrees :
    cgProgressStep (1 / 1000) (.fin 100) 150 5 10 ≠
      cgProgressStepClaim (1 / 1000) (.fin 100) 150 5 10 ∧
    cgProgressStep 0 (.fin 10) 10 5 10 ≠ cgProgressStepClaim 0 (.fin 10) 10 5 10 := by
  constructor <;> with_unfolding_all decide

/-- Claim C2 (amended): in a successfully solved iteration the counter is
incremented iff `obj` is strictly greater than
`(1 − min_progress) · prev_obj` (at exact equality it resets); the loop
exits exactly when the incremented counter equals
`max_count_no_improvements`, leaving `prev_obj` unchanged; on every
non-exiting path — improving or not — `prev_obj` is set to `obj`. -/
theorem C2_step_characterization (p : ℚ) (prev : EQf) (obj : ℚ) (cni maxCni : ℕ) :
    ((cgProgressStep p prev obj cni maxCni).exit = true ↔
      objGtThresh p prev obj = true ∧ cni + 1 = maxCni) ∧
    (cgProgressStep p prev obj cni maxCni).cni =
      (if objGtThresh p prev obj then cni + 1 else 0) ∧
    (cgProgressStep p prev obj cni maxCni).prev =
      (if (cgProgressStep p prev obj cni maxCni).exit then prev else .fin obj) := by
  unfold cgProgressStep
  by_cases h : objGtThresh p prev obj <;>
    simp only [h, if_true, if_false, Bool.false_eq_true] <;>
    by_cases h2 : cni + 1 = maxCni <;> simp [h2]

/-- Claim C3 (counterexample): with the admissible ratio `1/2` and
`max_solve_time − init_time = 20` seconds, the source sets a final-IP time
limit of `2000` ms (`int(1000 · 0.1 · 20)`), whereas the claimed formula
`(1 − ratio) · remaining` gives `10000` ms. -/
theorem C3_cex_ratio_half :
    finalIpTimeLimitMs 20 = 2000 ∧ specFinalIpTimeLimitMs (1 / 2) 20 = 10000 ∧
    ((1 : ℚ) / 2) ≤ 1 ∧ (2000 : ℤ) ≠ 10000 := by
  refine ⟨?_, ?_, ?_, ?_⟩ <;> with_unfolding_all decide

/-- Claim C3 (amended): the final IP time limit is the hard-coded
`0.1 · (max_solve_time − init_time)`, i.e. it equals the spec's formula
only with the ratio fixed at its default `0.9`, for every remaining
time. -/
theorem C3_time_limit_is_fixed_tenth (remaining : ℚ) :
    finalIpTimeLimitMs remaining = specFinalIpTimeLimitMs (9 / 10) remaining := by
  unfold finalIpTimeLimitMs specFinalIpTimeLimitMs
  norm_num

/-- Claim C5 (counterexample): on instance `I2` the constructor reaches the
single route `[1, 2]` with customer `3` still queued (the whole run returns
`[[1, 2, 3]]`).  The insertion scan for customer `3` evaluates only the
head (cost `11`) and the tail (cost `4`) and picks the tail, position `2`;
the strictly-middle position `1` — immediately before the last customer —
is never evaluated, although it is admissible in the spec's sense with
insertion cost `0 < 4`.  The code therefore does not pick the admissible
(route, position) pair of minimum insertion cost over the claimed
enumeration. -/
theorem C5_cex_middle_position_skipped :
    (initial_solution I2 1 100).map Prod.fst = some [[1, 2, 3]] ∧
    ((twMatrix I2).bind fun m =>
      (allCands I2 m [1] 100 [(0, [1, 2])] 3).map fun L =>
        ((selBest 9999999 none L).2, (selBest 9999999 none L).1,
          L.map (fun t => t.2.1.2)))
      = some (some (0, 2), 4, [0, 2]) ∧
    specInsertionAdmissible I2 100 [1, 2] 3 1 = true ∧
    specInsertionCost I2 [1, 2] 3 1 = some 0 ∧
    ((0 : ℚ) < 4) := by
  refine ⟨?_, ?_, ?_, ?_, ?_⟩ <;> with_unfolding_all decide

/-- Unfolding lemma for `selBest` on a cons cell. -/
theorem selBest_cons (bv : ℚ) (bb : Option (ℕ × ℕ)) (v0 : ℚ) (ip0 : ℕ × ℕ) (adm0 : Bool)
    (L : List Cand) :
    selBest bv bb ((v0, ip0, adm0) :: L) =
      if adm0 && decide (v0 < bv) then selBest v0 (some ip0) L else selBest bv bb L := rfl

/-- The running-best fold either keeps its initial accumulator — in which
case no admissible candidate beats the initial value — or returns the
first admissible candidate attaining the least admissible value below the
initial one: every earlier admissible candidate is strictly larger, every
later one at least as large. -/
theorem selBest_spec (L : List Cand) : ∀ (bv : ℚ) (bb : Option (ℕ × ℕ)),
    (selBest bv bb L = (bv, bb) ∧ ∀ x ∈ L, x.2.2 = true → bv ≤ x.1) ∨
    (∃ v ip pre post, L = pre ++ (v, ip, true) :: post ∧
      selBest bv bb L = (v, some ip) ∧ v < bv ∧
      (∀ x ∈ pre, x.2.2 = true → v < x.1) ∧
      (∀ x ∈ post, x.2.2 = true → v ≤ x.1)) := by
  induction L with
  | nil =>
    intro bv bb
    left
    exact ⟨rfl, by simp⟩
  | cons x L ih =>
    intro bv bb
    obtain ⟨v0, ip0, adm0⟩ := x
    by_cases h : adm0 = true ∧ v0 < bv
    · have hcond : (adm0 && decide (v0 < bv)) = true := by
        simp [h.1, h.2]
      rcases ih v0 (some ip0) with ⟨heq, hall⟩ | ⟨v, ip, pre, post, hL, heq, hlt, hpre, hpost⟩
      · right
        refine ⟨v0, ip0, [], L, by simp [h.1], ?_, h.2, by simp, hall⟩
        rw [selBest_cons, hcond, if_pos rfl]
        exact heq
      · right
        refine ⟨v, ip, (v0, ip0, true) :: pre, post, by simp [hL, h.1], ?_,
          lt_trans hlt h.2, ?_, hpost⟩
        · rw [selBest_cons, hcond, if_pos rfl]
          exact heq
        · intro y hy hadm
          rcases List.mem_cons.mp hy with rfl | hy
          · exact hlt
          · exact hpre y hy hadm
    · have hcond : (adm0 && decide (v0 < bv)) = false := by
        rcases Decidable.not_and_iff_or_not.mp h with h1 | h2
        · simp [h1]
        · simp [h2]
      have hge : adm0 = true → bv ≤ v0 := by
        intro ha
        by_contra hcon
        exact h ⟨ha, lt_of_not_le hcon⟩
      rcases ih bv bb with ⟨heq, hall⟩ | ⟨v, ip, pre, post, hL, heq, hlt, hpre, hpost⟩
      · left
        constructor
        · rw [selBest_cons, hcond, if_neg (by simp)]
          exact heq
        · intro y hy hadm
          rcases List.mem_cons.mp hy with rfl | hy
          · exact hge hadm
          · exact hall y hy hadm
      · right
        refine ⟨v, ip, (v0, ip0, adm0) :: pre, post, by simp [hL], ?_, hlt, ?_, hpost⟩
        · rw [selBest_cons, hcond, if_neg (by simp)]
          exact heq
        · intro y hy hadm
          rcases List.mem_cons.mp hy with rfl | hy
          · exact lt_of_lt_of_le hlt (hge hadm)
          · exact hpre y hy hadm

/-- `optList` succeeds exactly on a list of `some`s, returning their
contents. -/
theorem optList_eq_map_some {α : Type} :
    ∀ {l : List (Option α)} {L : List α}, optList l = some L → l = L.map some := by
  intro l
  induction l with
  | nil =>
    intro L h
    simp only [optList, Option.some_inj] at h
    subst h
    rfl
  | cons x l ih =>
    intro L h
    cases x with
    | none => simp [optList] at h
    | some a =>
      simp only [optList] at h
      rcases Option.map_eq_some'.mp h with ⟨L', h1, h2⟩
      subst h2
      simp [ih h1]

/-- A successful head candidate sits at position `0` and carries the
spec's head insertion cost. -/
theorem headCand_spec {inst : VrpInstance} {m : List (List TWv)} {r : List ℕ} {c cr : ℕ}
    {t : InsCand} (h : headCand inst m r c cr = some t) (hcr : r.head? = some cr) :
    t.2.1 = 0 ∧ specInsertionCost inst r c 0 = some t.1 := by
  unfold headCand at h
  split at h
  case _ a1 a2 a3 ha1 ha2 ha3 =>
    have hspec : specInsertionCost inst r c 0 =
        some (a1 + (inst.nodes c).service_time + a2 - a3) := by
      unfold specInsertionCost
      rw [if_pos rfl, hcr, Option.some_bind, ha1, Option.some_bind, ha2, Option.some_bind,
        ha3, Option.map_some']
    split at h
    · rcases Option.some_inj.mp h with rfl
      exact ⟨rfl, hspec⟩
    · rcases Option.map_eq_some'.mp h with ⟨f, hf, rfl⟩
      exact ⟨rfl, hspec⟩
  case _ => exact absurd h (by simp)

/-- A successful middle candidate sits at position `ci` and carries the
spec's middle insertion cost. -/
theorem middleCand_spec {inst : VrpInstance} {m : List (List TWv)} {r : List ℕ}
    {c ci prevC cr : ℕ} {t : InsCand} (h : middleCand inst m r c ci prevC cr = some t)
    (hprev : r.get? (ci - 1) = some prevC) (hcr : r.get? ci = some cr)
    (h0 : 0 < ci) (hlen : ci + 1 < r.length) :
    t.2.1 = ci ∧ specInsertionCost inst r c ci = some t.1 := by
  unfold middleCand at h
  split at h
  case _ a1 a2 a3 ha1 ha2 ha3 =>
    have hspec : specInsertionCost inst r c ci =
        some (a1 + a2 - a3 + (inst.nodes c).service_time) := by
      unfold specInsertionCost
      rw [if_neg (Nat.pos_iff_ne_zero.mp h0), if_neg (by omega),
        hprev, Option.some_bind, hcr, Option.some_bind, ha1, Option.some_bind,
        ha2, Option.some_bind, ha3, Option.map_some']
    split at h
    · rcases Option.some_inj.mp h with rfl
      exact ⟨rfl, hspec⟩
    · rcases Option.map_eq_some'.mp h with ⟨f, hf, rfl⟩
      exact ⟨rfl, hspec⟩
  case _ => exact absurd h (by simp)

/-- A successful tail candidate sits at position `len(route)` and carries
the spec's tail insertion cost. -/
theorem tailCand_spec {inst : VrpInstance} {m : List (List TWv)} {r : List ℕ} {c cr : ℕ}
    {t : InsCand} (h : tailCand inst m r c cr = some t) (hcr : r.getLast? = some cr)
    (hne : r.length ≠ 0) :
    t.2.1 = r.length ∧ specInsertionCost inst r c r.length = some t.1 := by
  unfold tailCand at h
  split at h
  case _ a1 ha1 =>
    have hspec : specInsertionCost inst r c r.length =
        some (a1 + (inst.nodes c).service_time) := by
      unfold specInsertionCost
      rw [if_neg hne, if_pos rfl, hcr, Option.some_bind, ha1, Option.map_some']
    split at h
    · rcases Option.some_inj.mp h with rfl
      exact ⟨rfl, hspec⟩
    · rcases Option.map_eq_some'.mp h with ⟨f, hf, rfl⟩
      exact ⟨rfl, hspec⟩
  case _ => exact absurd h (by simp)

/-- Every candidate generated at loop index `ci` sits at one of the three
positions the branch structure admits — head at `ci = 0`, the position
`ci` itself when `0 < ci < len - 1`, or the tail position `len` when
`ci = len - 1` — and carries the spec's insertion cost for its position. -/
theorem candsAt_spec {inst : VrpInstance} {m : List (List TWv)} {r : List ℕ} {c ci : ℕ}
    {lst : List InsCand} (h : candsAt inst m r c ci = some lst) (hci : ci < r.length) :
    ∀ t ∈ lst,
      ((t.2.1 = 0 ∧ ci = 0) ∨ (t.2.1 = ci ∧ 0 < ci ∧ ci + 1 < r.length) ∨
        (t.2.1 = r.length ∧ ci + 1 = r.length)) ∧
      specInsertionCost inst r c t.2.1 = some t.1 := by
  obtain ⟨cr, hcr⟩ : ∃ cr, r.get? ci = some cr :=
    ⟨r.get ⟨ci, hci⟩, List.get?_eq_get hci⟩
  unfold candsAt at h
  rw [hcr] at h
  rcases Option.bind_eq_some.mp h with ⟨l1, h1, h2⟩
  rcases Option.map_eq_some'.mp h2 with ⟨l2, h3, rfl⟩
  intro t ht
  rcases List.mem_append.mp ht with ht1 | ht2
  · by_cases hc0 : ci = 0
    · rw [if_pos hc0] at h1
      rcases Option.map_eq_some'.mp h1 with ⟨t0, ht0, rfl⟩
      rcases List.mem_singleton.mp ht1 with rfl
      subst hc0
      have hh := headCand_spec ht0 (by rw [← List.get?_zero]; exact hcr)
      exact ⟨Or.inl ⟨hh.1, rfl⟩, by rw [hh.1]; exact hh.2⟩
    · rw [if_neg hc0] at h1
      by_cases hmid : 0 < ci ∧ ci + 1 < r.length
      · rw [if_pos hmid] at h1
        obtain ⟨prevC, hprev⟩ : ∃ p, r.get? (ci - 1) = some p :=
          ⟨r.get ⟨ci - 1, by omega⟩, List.get?_eq_get (by omega)⟩
        rw [hprev] at h1
        rcases Option.map_eq_some'.mp h1 with ⟨t0, ht0, rfl⟩
        rcases List.mem_singleton.mp ht1 with rfl
        have hm := middleCand_spec ht0 hprev hcr hmid.1 hmid.2
        exact ⟨Or.inr (Or.inl ⟨hm.1, hmid⟩), by rw [hm.1]; exact hm.2⟩
      · rw [if_neg hmid] at h1
        rcases Option.some_inj.mp h1 with rfl
        exact absurd ht1 (List.not_mem_nil t)
  · by_cases htail : ci + 1 = r.length
    · rw [if_pos htail] at h3
      rcases Option.map_eq_some'.mp h3 with ⟨t0, ht0, rfl⟩
      rcases List.mem_singleton.mp ht2 with rfl
      have hlast : r.getLast? = some cr := by
        rw [List.getLast?_eq_get?]
        rw [show r.length - 1 = ci by omega]
        exact hcr
      have htl := tailCand_spec ht0 hlast (by omega)
      exact ⟨Or.inr (Or.inr ⟨htl.1, htail⟩), by rw [htl.1]; exact htl.2⟩
    · rw [if_neg htail] at h3
      rcases Option.some_inj.mp h3 with rfl
      exact absurd ht2 (List.not_mem_nil t)

/-- Conversely, each of the three admissible branch positions of loop index
`ci` does produce a candidate. -/
theorem candsAt_cover {inst : VrpInstance} {m : List (List TWv)} {r : List ℕ} {c ci : ℕ}
    {lst : List InsCand} (h : candsAt inst m r c ci = some lst) (hci : ci < r.length) :
    (ci = 0 → ∃ t ∈ lst, t.2.1 = 0) ∧
    (0 < ci ∧ ci + 1 < r.length → ∃ t ∈ lst, t.2.1 = ci) ∧
    (ci + 1 = r.length → ∃ t ∈ lst, t.2.1 = r.length) := by
  obtain ⟨cr, hcr⟩ : ∃ cr, r.get? ci = some cr :=
    ⟨r.get ⟨ci, hci⟩, List.get?_eq_get hci⟩
  unfold candsAt at h
  rw [hcr] at h
  rcases Option.bind_eq_some.mp h with ⟨l1, h1, h2⟩
  rcases Option.map_eq_some'.mp h2 with ⟨l2, h3, rfl⟩
  refine ⟨?_, ?_, ?_⟩
  · intro hc0
    rw [if_pos hc0] at h1
    rcases Option.map_eq_some'.mp h1 with ⟨t0, ht0, rfl⟩
    subst hc0
    have hh := headCand_spec ht0 (by rw [← List.get?_zero]; exact hcr)
    exact ⟨t0, List.mem_append_left _ (List.mem_singleton_self t0), hh.1⟩
  · intro hmid
    rw [if_neg (by omega), if_pos hmid] at h1
    obtain ⟨prevC, hprev⟩ : ∃ p, r.get? (ci - 1) = some p :=
      ⟨r.get ⟨ci - 1, by omega⟩, List.get?_eq_get (by omega)⟩
    rw [hprev] at h1
    rcases Option.map_eq_some'.mp h1 with ⟨t0, ht0, rfl⟩
    have hm := middleCand_spec ht0 hprev hcr hmid.1 hmid.2
    exact ⟨t0, List.mem_append_left _ (List.mem_singleton_self t0), hm.1⟩
  · intro htail
    rw [if_pos htail] at h3
    rcases Option.map_eq_some'.mp h3 with ⟨t0, ht0, rfl⟩
    have hlast : r.getLast? = some cr := by
      rw [List.getLast?_eq_get?]
      rw [show r.length - 1 = ci by omega]
      exact hcr
    have htl := tailCand_spec ht0 hlast (by omega)
    exact ⟨t0, List.mem_append_right _ (List.mem_singleton_self t0), htl.1⟩

/-- The full inner loop over `enumerate(route)` evaluates exactly the
insert positions `0`, `1 .. len-2` and `len` — the strictly-middle
position `len - 1` immediately before the last customer is never
evaluated — and every evaluated candidate carries the spec's insertion
cost for its position. -/
theorem routeCands_spec {inst : VrpInstance} {m : List (List TWv)} {r : List ℕ} {c : ℕ}
    {l : List InsCand} (h : routeCands inst m r c = some l) (h1 : 1 ≤ r.length) :
    (∀ pos, (∃ v adm, (v, pos, adm) ∈ l) ↔
      (pos = 0 ∨ (0 < pos ∧ pos + 1 < r.length) ∨ pos = r.length)) ∧
    ∀ t ∈ l, specInsertionCost inst r c t.2.1 = some t.1 := by
  unfold routeCands at h
  rcases Option.map_eq_some'.mp h with ⟨LL, hLL, rfl⟩
  have hmap := optList_eq_map_some hLL
  have hlen : LL.length = r.length := by
    have := congrArg List.length hmap
    simpa using this.symm
  have hpoint : ∀ ci, ci < r.length →
      ((List.range r.length).map (candsAt inst m r c)).get? ci =
        some (candsAt inst m r c ci) := by
    intro ci hci
    rw [List.get?_map, List.get?_range hci, Option.map_some']
  have hfwdGet : ∀ ci, ci < r.length → ∀ lst, LL.get? ci = some lst →
      candsAt inst m r c ci = some lst := by
    intro ci hci lst hlst
    have e1 := hpoint ci hci
    rw [hmap, List.get?_map, hlst, Option.map_some'] at e1
    exact (Option.some_inj.mp e1).symm
  have hgetEx : ∀ ci, ci < r.length →
      ∃ lst, candsAt inst m r c ci = some lst ∧ lst ∈ LL := by
    intro ci hci
    obtain ⟨lst, hlst⟩ : ∃ lst, LL.get? ci = some lst :=
      ⟨LL.get ⟨ci, by omega⟩, List.get?_eq_get (by omega)⟩
    exact ⟨lst, hfwdGet ci hci lst hlst, List.get?_mem hlst⟩
  have hmemIdx : ∀ lst ∈ LL, ∃ ci, ci < r.length ∧ candsAt inst m r c ci = some lst := by
    intro lst hlst
    rcases List.mem_iff_get?.mp hlst with ⟨ci, hci⟩
    have hlt : ci < LL.length := (List.get?_eq_some.mp hci).1
    exact ⟨ci, by omega, hfwdGet ci (by omega) lst hci⟩
  constructor
  · intro pos
    constructor
    · rintro ⟨v, adm, hmem⟩
      rcases List.mem_flatten.mp hmem with ⟨lst, hlstLL, htl⟩
      rcases hmemIdx lst hlstLL with ⟨ci, hci, hcands⟩
      rcases (candsAt_spec hcands hci (v, pos, adm) htl).1 with h0 | hm | ht
      · exact Or.inl h0.1
      · have hp : pos = ci := hm.1
        subst hp
        exact Or.inr (Or.inl ⟨hm.2.1, hm.2.2⟩)
      · exact Or.inr (Or.inr ht.1)
    · intro hpos
      have pick : ∃ ci, ci < r.length ∧
          (ci = 0 ∧ pos = 0 ∨ (0 < ci ∧ ci + 1 < r.length) ∧ pos = ci ∨
            ci + 1 = r.length ∧ pos = r.length) := by
        rcases hpos with h0 | hm | ht
        · exact ⟨0, by omega, Or.inl ⟨rfl, h0⟩⟩
        · exact ⟨pos, by omega, Or.inr (Or.inl ⟨⟨hm.1, hm.2⟩, rfl⟩)⟩
        · exact ⟨r.length - 1, by omega, Or.inr (Or.inr ⟨by omega, ht⟩)⟩
      rcases pick with ⟨ci, hci, hcase⟩
      rcases hgetEx ci hci with ⟨lst, hcands, hlstLL⟩
      have hcov := candsAt_cover hcands hci
      have : ∃ t ∈ lst, t.2.1 = pos := by
        rcases hcase with ⟨rfl, rfl⟩ | ⟨hmid, rfl⟩ | ⟨htail, rfl⟩
        · exact hcov.1 rfl
        · exact hcov.2.1 hmid
        · exact hcov.2.2 htail
      rcases this with ⟨t, htl, hposeq⟩
      obtain ⟨tv, tp, ta⟩ := t
      simp only at hposeq
      subst hposeq
      exact ⟨tv, ta, List.mem_flatten.mpr ⟨lst, hlstLL, htl⟩⟩
  · intro t ht
    rcases List.mem_flatten.mp ht with ⟨lst, hlstLL, htl⟩
    rcases hmemIdx lst hlstLL with ⟨ci, hci, hcands⟩
    exact (candsAt_spec hcands hci t htl).2

/-- Claim C6 (counterexample): a CG iteration whose master solve succeeds,
whose pricing reports a negative objective, and whose `x` values give the
depot no successor above `0.9`, makes the whole solve crash with the
uncaught `IndexError` of `_next_stop`'s `pop()` — it does not exit the CG
loop cleanly and never reaches the final IP solve. -/
theorem C6_cex_degenerate_pricing_crashes :
    solveLoop I3 (1 / 1000) 10 cgInit [o6] = .crashed .indexError := by
  with_unfolding_all decide

/-- Claim C7 (counterexample): on instance `I3` the construction heuristic
produces the pool route `[1, 2]`; the master-problem stop records built
for it carry no `arrival` key at all, so the saved solution rows for that
chosen route all lack an arrival time. -/
theorem C7_cex_construction_stops_lack_arrival :
    (initial_solution I3 2 40000).map Prod.fst = some [[1, 2]] ∧
    (saveRoutesTable [nikoMasterRoute [1, 2]] [0]).any
      (fun row => row.2.2.arrival.isNone) = true ∧
    saveRoutesTable [nikoMasterRoute [1, 2]] [0] ≠ [] := by
  refine ⟨?_, ?_, ?_⟩ <;> with_unfolding_all decide

/-- Claim C5 (amended): for each queued customer the insertion phase scans,
per existing route of length `k`, exactly the insert positions `0` (head),
`1 .. k-2` (strictly-middle positions other than the one immediately
before the last customer, which is never evaluated), and `k` (tail), each
with the spec's insertion-cost formula for that position; and among all
evaluated candidates that pass the code's admissibility checks it commits
the first one of minimum insertion cost in scan order (routes in ascending
id order), i.e. ties go to the lowest route id. -/
theorem C5_amended_insertion_scan :
    (∀ (inst : VrpInstance) (m : List (List TWv)) (r : List ℕ) (c : ℕ) (l : List InsCand),
      routeCands inst m r c = some l → 1 ≤ r.length →
      (∀ pos, (∃ v adm, (v, pos, adm) ∈ l) ↔
        (pos = 0 ∨ (0 < pos ∧ pos + 1 < r.length) ∨ pos = r.length)) ∧
      (∀ t ∈ l, specInsertionCost inst r c t.2.1 = some t.1)) ∧
    (∀ (inst : VrpInstance) (m : List (List TWv)) (seedCaps : List ℚ) (cap : ℚ)
      (routes : List (ℕ × List ℕ)) (c rid pos : ℕ) (L : List Cand),
      allCands inst m seedCaps cap routes c = some L →
      (selBest 9999999 none L).2 = some (rid, pos) →
      insertCustomer inst m seedCaps cap routes c =
        some (updAssoc routes rid (fun r => pyInsert c r pos)) ∧
      ∃ v pre post, L = pre ++ (v, (rid, pos), true) :: post ∧ v < 9999999 ∧
        (∀ x ∈ pre, x.2.2 = true → v < x.1) ∧
        (∀ x ∈ L, x.2.2 = true → v ≤ x.1)) := by
  constructor
  · intro inst m r c l h h1
    exact routeCands_spec h h1
  · intro inst m seedCaps cap routes c rid pos L hall hsel
    constructor
    · unfold insertCustomer
      rw [hall, Option.some_bind, hsel]
    · rcases selBest_spec L 9999999 none with ⟨heq, _⟩ | ⟨v, ip, pre, post, hL, heq, hlt, hpre, hpost⟩
      · rw [heq] at hsel
        exact absurd hsel (by simp)
      · rw [heq] at hsel
        have hip : ip = (rid, pos) := Option.some_inj.mp hsel
        subst hip
        refine ⟨v, pre, post, hL, hlt, hpre, ?_⟩
        intro x hx hadm
        rw [hL] at hx
        rcases List.mem_append.mp hx with hx1 | hx2
        · exact le_of_lt (hpre x hx1 hadm)
        · rcases List.mem_cons.mp hx2 with rfl | hx3
          · exact le_refl v
          · exact hpost x hx3 hadm

/-- Witness for `C5_amended_insertion_scan` at the concrete state of
instance `I2`: inserting customer `3` into the pool `{0 : [1, 2]}` commits
position `2` of route `0`, and the never-evaluated middle position `1`
yields no candidate. -/
theorem C5_amended_insertion_scan_witness :
    (¬ ∃ v adm, (v, 1, adm) ∈ ([(11, 0, true), (4, 2, true)] : List InsCand)) ∧
    insertCustomer I2 twI2 [1] 100 [(0, [1, 2])] 3 =
      some (updAssoc [(0, [1, 2])] 0 (fun r => pyInsert 3 r 2)) := by
  constructor
  · intro hex
    have h := ((C5_amended_insertion_scan.1 I2 twI2 [1, 2] 3
      [(11, 0, true), (4, 2, true)] (by with_unfolding_all decide) (by decide)).1 1).mp hex
    rcases h with h0 | hm | ht
    · exact absurd h0 (by decide)
    · exact absurd hm.2 (by decide)
    · exact absurd ht (by decide)
  · exact (C5_amended_insertion_scan.2 I2 twI2 [1] 100 [(0, [1, 2])] 3 0 2
      [(11, (0, 0), true), (4, (0, 2), true)]
      (by with_unfolding_all decide) (by with_unfolding_all decide)).1

/-- Claim C6 (amended): in any CG iteration whose master solves
successfully, whose stagnation bookkeeping does not break the loop, and
whose pricing solve succeeds with a negative objective, if no successor of
the depot carries an `x` value above `0.9` then route recovery raises the
unhandled `IndexError` of `pop()` on an empty list and the whole solve
terminates abnormally — the final IP solve is never reached. -/
theorem C6_amended_recovery_crash (inst : VrpInstance) (p : ℚ) (maxCni : ℕ)
    (st : CGState) (o : IterOracle) (rest : List IterOracle)
    (hfb : st.findingBetter = true) (ht : o.timeOk = true) (hms : o.masterStatus = 0)
    (hprog : (cgProgressStep p st.prev o.masterObj st.cni maxCni).exit = false)
    (hss : o.subStatus = 0) (hobj : o.subObj < 0)
    (hdeg : ∀ j, j < inst.n → ¬(0 ≠ j ∧ o.x 0 j > 9 / 10)) :
    solveLoop inst p maxCni st (o :: rest) = .crashed .indexError := by
  have hns : next_stop inst o.x 0 = none := by
    unfold next_stop
    have hfil : (List.range inst.n).filter
        (fun j => decide ((0 : ℕ) ≠ j) && decide (o.x 0 j > 9 / 10)) = [] := by
      apply List.filter_eq_nil.mpr
      intro j hj
      have hjn : j < inst.n := List.mem_range.mp hj
      simp only [Bool.and_eq_true, decide_eq_true_eq]
      exact fun hc => hdeg j hjn hc
    rw [hfil]
    rfl
  have hrec : recover_route inst o.x o.s = .error .indexError := by
    unfold recover_route
    have : recoverAux inst o.x o.s (inst.n + 1) 0 = .error .indexError := by
      unfold recoverAux
      rw [hns]
    rw [this]
    rfl
  unfold solveLoop
  rw [if_pos ⟨hfb, ht⟩, if_neg (show ¬(o.masterStatus ≠ 0) from fun hcon => hcon hms)]
  simp only [hprog, Bool.false_eq_true, if_false,
    if_neg (show ¬(o.subStatus ≠ 0) from fun hcon => hcon hss), if_pos hobj, hrec]

/-- Witness for `C6_amended_recovery_crash`: instance `I3`, the degenerate
oracle `o6` at the head of a two-entry trace. -/
theorem C6_amended_recovery_crash_witness :
    cgInit.findingBetter = true ∧ o6.timeOk = true ∧ o6.subObj < 0 ∧
    solveLoop I3 (1 / 1000) 7 cgInit [o6, o6] = .crashed .indexError :=
  ⟨rfl, rfl, by with_unfolding_all decide,
    C6_amended_recovery_crash I3 (1 / 1000) 7 cgInit o6 [o6] rfl rfl rfl
      (by with_unfolding_all decide) rfl (by with_unfolding_all decide)
      (by with_unfolding_all decide)⟩

/-- Every intermediate stop the recovery walk collects carries an arrival
(taken from the pricing model's `s` values). -/
theorem recoverAux_arrivals (inst : VrpInstance) (x : ℕ → ℕ → ℚ) (s : ℕ → ℚ) :
    ∀ (fuel cur : ℕ) (mids : List Stop),
      recoverAux inst x s fuel cur = .ok mids → ∀ st ∈ mids, st.arrival.isSome = true := by
  intro fuel
  induction fuel with
  | zero =>
    intro cur mids h
    exact absurd h (by simp [recoverAux])
  | succ fuel ih =>
    intro cur mids h
    unfold recoverAux at h
    cases hns : next_stop inst x cur with
    | none =>
      rw [hns] at h
      exact absurd h (by simp)
    | some nxt =>
      rw [hns] at h
      dsimp only at h
      by_cases hnz : nxt = 0
      · rw [if_pos hnz] at h
        have : mids = [] := by
          cases h
          rfl
        subst this
        intro st hst
        exact absurd hst (List.not_mem_nil st)
      · rw [if_neg hnz] at h
        cases haux : recoverAux inst x s fuel nxt with
        | error e =>
          rw [haux] at h
          exact absurd h (by simp [Except.map])
        | ok rest =>
          rw [haux] at h
          have hmids : mids = ⟨nxt, some (s nxt)⟩ :: rest := by
            simp only [Except.map] at h
            cases h
            rfl
          subst hmids
          intro st hst
          rcases List.mem_cons.mp hst with rfl | hst2
          · rfl
          · exact ih nxt rest haux st hst2

/-- Claim C7 (amended): pool routes of all three producers begin and end at
the depot; singleton-initialized and pricing-recovered stops all carry an
arrival, while stops of construction-heuristic routes carry none. -/
theorem C7_amended_stop_structure :
    (∀ r : List ℕ, r ≠ [] →
      (nikoMasterRoute r).head? = some ⟨0, none⟩ ∧
      (nikoMasterRoute r).getLast? = some ⟨0, none⟩ ∧
      ∀ st ∈ nikoMasterRoute r, st.arrival = none) ∧
    (∀ (inst : VrpInstance) (j : ℕ) (stops : List Stop),
      singletonRoute inst j = some stops →
      stops.head? = some ⟨0, some 0⟩ ∧ stops.getLast? = some ⟨0, some 24⟩ ∧
      ∀ st ∈ stops, st.arrival.isSome = true) ∧
    (∀ (inst : VrpInstance) (x : ℕ → ℕ → ℚ) (s : ℕ → ℚ) (stops : List Stop),
      recover_route inst x s = .ok stops →
      stops.head? = some ⟨0, some 0⟩ ∧
      stops.getLast? = some ⟨0, some (inst.nodes 0).close_time⟩ ∧
      ∀ st ∈ stops, st.arrival.isSome = true) := by
  refine ⟨?_, ?_, ?_⟩
  · intro r _
    refine ⟨rfl, ?_, ?_⟩
    · show (Stop.mk 0 none :: (r.map (fun c => ⟨c, none⟩) ++ [⟨0, none⟩])).getLast? =
        some ⟨0, none⟩
      rw [← List.cons_append, List.getLast?_concat]
    · intro st hst
      unfold nikoMasterRoute at hst
      rcases List.mem_cons.mp hst with rfl | hst2
      · rfl
      · rcases List.mem_append.mp hst2 with hst3 | hst4
        · rcases List.mem_map.mp hst3 with ⟨c, _, rfl⟩
          rfl
        · rcases List.mem_singleton.mp hst4 with rfl
          rfl
  · intro inst j stops h
    rcases Option.map_eq_some'.mp h with ⟨a, _, rfl⟩
    refine ⟨rfl, rfl, ?_⟩
    intro st hst
    rcases List.mem_cons.mp hst with rfl | hst2
    · rfl
    · rcases List.mem_cons.mp hst2 with rfl | hst3
      · rfl
      · rcases List.mem_singleton.mp hst3 with rfl
        rfl
  · intro inst x s stops h
    unfold recover_route at h
    cases haux : recoverAux inst x s (inst.n + 1) 0 with
    | error e =>
      rw [haux] at h
      exact absurd h (by simp [Except.map])
    | ok mids =>
      rw [haux] at h
      have hstops : stops = ⟨0, some 0⟩ :: (mids ++ [⟨0, some (inst.nodes 0).close_time⟩]) := by
        simp only [Except.map] at h
        cases h
        rfl
      subst hstops
      refine ⟨rfl, ?_, ?_⟩
      · rw [← List.cons_append, List.getLast?_concat]
      · intro st hst
        rcases List.mem_cons.mp hst with rfl | hst2
        · rfl
        · rcases List.mem_append.mp hst2 with hst3 | hst4
          · exact recoverAux_arrivals inst x s (inst.n + 1) 0 mids haux st hst3
          · rcases List.mem_singleton.mp hst4 with rfl
            rfl

/-- Witness for `C7_amended_stop_structure`: the construction route
`[1, 2]` of instance `I3` — every stop record lacks an arrival. -/
theorem C7_amended_stop_structure_witness :
    ([1, 2] : List ℕ) ≠ [] ∧ (∀ st ∈ nikoMasterRoute [1, 2], st.arrival = none) :=
  ⟨by decide, (C7_amended_stop_structure.1 [1, 2] (by decide)).2.2⟩

/-- Appending at index `len` is appending at the end (Python's
`insert(len(route), 0)` used by both feasibility oracles). -/
theorem pyInsert_length (x : ℕ) : ∀ l : List ℕ, pyInsert x l l.length = l ++ [x] := by
  intro l
  induction l with
  | nil => rfl
  | cons a l ih =>
    show a :: pyInsert x l l.length = a :: (l ++ [x])
    rw [ih]

/-- The time-feasibility loop computes the conjunction, over the walked
stops, of the claim's per-stop window checks: with the finish times of
`finishWalk` in hand, the running flag ends as the initial flag conjoined
with `finish ≤ close` at every stop. -/
theorem feasTimeAux_finishWalk (inst : VrpInstance) :
    ∀ (l : List ℕ) (last : ℕ) (f : ℚ) (acc : Bool) (fs : List (ℕ × ℚ)),
      finishWalk inst last f l = some fs →
      feasTimeAux inst l last f acc =
        some (acc && decide (∀ p ∈ fs, p.2 ≤ (inst.nodes p.1).close_time)) := by
  intro l
  induction l with
  | nil =>
    intro last f acc fs h
    simp only [finishWalk, Option.some_inj] at h
    subst h
    simp [feasTimeAux]
  | cons c rest ih =>
    intro last f acc fs h
    unfold finishWalk at h
    cases ha : inst.arcs last c with
    | none =>
      rw [ha] at h
      exact absurd h (by simp)
    | some a =>
      rw [ha] at h
      dsimp only at h
      rcases Option.map_eq_some'.mp h with ⟨fs', hfs', rfl⟩
      unfold feasTimeAux
      rw [ha]
      dsimp only
      rw [ih c _ _ fs' hfs']
      congr 1
      by_cases h1 : pyMax (f + a.travel_time) (inst.nodes c).open_time +
          (inst.nodes c).service_time > (inst.nodes c).close_time <;>
        by_cases h2 : ∀ p ∈ fs', p.2 ≤ (inst.nodes p.1).close_time <;>
        cases acc <;>
        simp [h1, h2, List.forall_mem_cons, le_of_not_lt, not_le_of_lt]

/-- Claim C8: `route_is_feasible_by_time(R)` returns true iff, walking
`depot, c₁, …, cₖ, depot` with `finish(depot) = 0` and
`finish(cᵢ) = max(finish(cᵢ₋₁) + travel, open(cᵢ)) + service(cᵢ)`, every
stop — including the final return to the depot — finishes no later than
its closing time. -/
theorem C8_time_feasibility_iff (inst : VrpInstance) (route : List ℕ) (fs : List (ℕ × ℚ))
    (hne : route ≠ []) (hw : finishWalk inst 0 0 (route ++ [0]) = some fs) :
    route_is_feasible_by_time route inst = some true ↔
      ∀ p ∈ fs, p.2 ≤ (inst.nodes p.1).close_time := by
  unfold route_is_feasible_by_time get_temp_route
  rw [pyInsert_length, feasTimeAux_finishWalk inst (route ++ [0]) 0 0 true fs hw]
  simp

/-- Witness for `C8_time_feasibility_iff`: the route `[1, 2]` of instance
`I3`, whose finish times are `10, 16, 17` against closes `20, 16, 24`. -/
theorem C8_time_feasibility_iff_witness :
    ([1, 2] : List ℕ) ≠ [] ∧
    finishWalk I3 0 0 ([1, 2] ++ [0]) = some [(1, 10), (2, 16), (0, 17)] ∧
    route_is_feasible_by_time [1, 2] I3 = some true :=
  ⟨by decide, by with_unfolding_all decide,
    (C8_time_feasibility_iff I3 [1, 2] [(1, 10), (2, 16), (0, 17)] (by decide)
      (by with_unfolding_all decide)).mpr (by with_unfolding_all decide)⟩

/-- Claim C9: the precomputed compatibility matrix holds `-1` on the
diagonal, and for every ordered pair `i ≠ j` the arc `(i, j)` exists and
the entry is the spec's slack formula — `min(l_j, al_j) − max(e_j, ae_j)`
when `l_j − ae_j > 0`, and `-∞` otherwise. -/
theorem C9_tw_matrix (inst : VrpInstance) (m : List (List TWv)) (i j : ℕ)
    (hm : twMatrix inst = some m) (hi : i < inst.n) (hj : j < inst.n) :
    (i = j → twGetD m i j = .fin (-1)) ∧
    (i ≠ j → ∃ a, inst.arcs i j = some a ∧
      twGetD m i j = TWspecVal (inst.nodes i) (inst.nodes j) a.travel_time) := by
  unfold twMatrix at hm
  have hmap := optList_eq_map_some hm
  have hlen : m.length = inst.n := by
    simpa using (congrArg List.length hmap).symm
  have hrow : ∃ row, optList ((List.range inst.n).map (twEntry inst i)) = some row ∧
      m.get? i = some row := by
    obtain ⟨row, hr⟩ : ∃ row, m.get? i = some row :=
      ⟨m.get ⟨i, by omega⟩, List.get?_eq_get (by omega)⟩
    have e1 : ((List.range inst.n).map
        (fun i => optList ((List.range inst.n).map (twEntry inst i)))).get? i =
          some (optList ((List.range inst.n).map (twEntry inst i))) := by
      rw [List.get?_map, List.get?_range hi, Option.map_some']
    rw [hmap, List.get?_map, hr, Option.map_some'] at e1
    exact ⟨row, (Option.some_inj.mp e1).symm, hr⟩
  rcases hrow with ⟨row, hrowEq, hrowGet⟩
  have hrmap := optList_eq_map_some hrowEq
  have hrlen : row.length = inst.n := by
    simpa using (congrArg List.length hrmap).symm
  have hentry : ∃ e, twEntry inst i j = some e ∧ row.get? j = some e := by
    obtain ⟨e, he⟩ : ∃ e, row.get? j = some e :=
      ⟨row.get ⟨j, by omega⟩, List.get?_eq_get (by omega)⟩
    have e1 : ((List.range inst.n).map (twEntry inst i)).get? j =
        some (twEntry inst i j) := by
      rw [List.get?_map, List.get?_range hj, Option.map_some']
    rw [hrmap, List.get?_map, he, Option.map_some'] at e1
    exact ⟨e, (Option.some_inj.mp e1).symm, he⟩
  rcases hentry with ⟨e, hentryEq, hentryGet⟩
  have hget : twGetD m i j = e := by
    unfold twGetD
    rw [hrowGet]
    dsimp only [Option.bind]
    rw [hentryGet]
    rfl
  constructor
  · intro hij
    subst hij
    rw [hget]
    unfold twEntry at hentryEq
    rw [if_pos rfl] at hentryEq
    exact (Option.some_inj.mp hentryEq).symm
  · intro hij
    rw [hget]
    unfold twEntry at hentryEq
    rw [if_neg hij] at hentryEq
    cases ha : inst.arcs i j with
    | none =>
      rw [ha] at hentryEq
      exact absurd hentryEq (by simp)
    | some a =>
      rw [ha] at hentryEq
      dsimp only at hentryEq
      refine ⟨a, rfl, ?_⟩
      rw [← Option.some_inj.mp hentryEq]
      rfl

/-- Witness for `C9_tw_matrix`: instance `I3` at the pair `(1, 2)`, whose
entry is the `-∞` sentinel. -/
theorem C9_tw_matrix_witness :
    twMatrix I3 = some twI3 ∧
    (∃ a, I3.arcs 1 2 = some a ∧
      twGetD twI3 1 2 = TWspecVal (I3.nodes 1) (I3.nodes 2) a.travel_time) :=
  ⟨by with_unfolding_all decide,
    (C9_tw_matrix I3 twI3 1 2 (by with_unfolding_all decide) (by decide) (by decide)).2
      (by decide)⟩

/-- The time walk terminates with a value whenever every leg's arc
exists. -/
theorem feasTimeAux_total (inst : VrpInstance) :
    ∀ (l : List ℕ) (last : ℕ) (f : ℚ) (acc : Bool),
      legsDefined inst last l = true → ∃ b, feasTimeAux inst l last f acc = some b := by
  intro l
  induction l with
  | nil =>
    intro last f acc _
    exact ⟨acc, rfl⟩
  | cons c rest ih =>
    intro last f acc hlegs
    unfold legsDefined at hlegs
    have ha := Bool.and_elim_left hlegs
    have hrest := Bool.and_elim_right hlegs
    cases haa : inst.arcs last c with
    | none =>
      rw [haa] at ha
      exact absurd ha (by simp)
    | some a =>
      unfold feasTimeAux
      rw [haa]
      exact ih c _ _ hrest

/-- The capacity-and-time walk terminates with a value whenever every
leg's arc exists. -/
theorem feasAux_total (inst : VrpInstance) :
    ∀ (l : List ℕ) (last : ℕ) (f w : ℚ) (acc : Bool),
      legsDefined inst last l = true → ∃ p, feasAux inst l last f w acc = some p := by
  intro l
  induction l with
  | nil =>
    intro last f w acc _
    exact ⟨(acc, w), rfl⟩
  | cons c rest ih =>
    intro last f w acc hlegs
    unfold legsDefined at hlegs
    have ha := Bool.and_elim_left hlegs
    have hrest := Bool.and_elim_right hlegs
    cases haa : inst.arcs last c with
    | none =>
      rw [haa] at ha
      exact absurd ha (by simp)
    | some a =>
      unfold feasAux
      rw [haa]
      exact ih c _ _ _ hrest

/-- Claim C10: on a non-empty customer sequence all of whose legs —
including the two depot legs — have arcs, both feasibility predicates
return a boolean without error; on the empty sequence both walk the
missing `(depot, depot)` arc, so a valid instance (whose arcs all have
`i ≠ j`) makes them raise `KeyError` (`none`). -/
theorem C10_feasibility_totality (inst : VrpInstance) (cap : ℚ) (route : List ℕ)
    (hne : route ≠ []) (hlegs : legsDefined inst 0 (route ++ [0]) = true) :
    (∃ b, route_is_feasible_by_time route inst = some b) ∧
    (∃ b, route_is_feasible route inst cap = some b) ∧
    (inst.arcs 0 0 = none → route_is_feasible_by_time [] inst = none ∧
      route_is_feasible [] inst cap = none) := by
  refine ⟨?_, ?_, ?_⟩
  · unfold route_is_feasible_by_time get_temp_route
    rw [pyInsert_length]
    exact feasTimeAux_total inst (route ++ [0]) 0 0 true hlegs
  · unfold route_is_feasible get_temp_route
    rw [pyInsert_length]
    rcases feasAux_total inst (route ++ [0]) 0 0 0 true hlegs with ⟨p, hp⟩
    exact ⟨p.1 && !(decide (p.2 > cap)), by rw [hp]; rfl⟩
  · intro h00
    constructor
    · show feasTimeAux inst [0] 0 0 true = none
      unfold feasTimeAux
      rw [h00]
    · show (feasAux inst [0] 0 0 0 true).map _ = none
      unfold feasAux
      rw [h00]
      rfl

/-- Witness for `C10_feasibility_totality`: route `[1, 2]` on instance
`I3`, whose legs `(0,1), (1,2), (2,0)` all exist, and whose `(0,0)` arc is
absent. -/
theorem C10_feasibility_totality_witness :
    ([1, 2] : List ℕ) ≠ [] ∧ legsDefined I3 0 ([1, 2] ++ [0]) = true ∧
    I3.arcs 0 0 = none ∧
    (∃ b, route_is_feasible_by_time [1, 2] I3 = some b) :=
  ⟨by decide, by decide, by decide,
    (C10_feasibility_totality I3 40000 [1, 2] (by decide) (by decide)).1⟩
